import Mathlib

/-!
Verification of the MOF quantum-sieving screening pipeline
(src/quantum_sieving_mof_screening.ipynb).

The notebook pipeline is:
 1. target synthesis: `data['Target'] = 0.5*u + 0.5*(1/p); data['Target'] *= 2`
    over the columns `uptake_vol [g H2/L]` and `pore_volume [cm³/g]`;
 2. min-max normalization of the 18 feature columns (the `Target`
    column excluded) over the whole selected dataset;
 3. `svm_data.dropna()` removing rows with a missing value in any of the
    19 retained columns;
 4. `train_test_split(X, y, test_size=0.2, random_state=42)`;
 5. `LinearRegression().fit` and `mean_squared_error`.

Cells are embedded as follows: a raw CSV cell is `Option ℚ` (`none` is the
pandas missing marker NaN; CSV measurement values are finite rationals,
idealized as exact rationals, which does not affect missing/infinite
classification).  The synthesized `Target` is a `PFloat`, a pandas float64
value class: NaN, +inf, -inf or a finite rational.  This captures exactly
the IEEE special-value propagation that the notebook's arithmetic performs
(in particular `1 / 0.0 = +inf`, and NaN propagating through `+` and `*`),
while idealizing finite-value rounding away.
-/

/-- A pandas float64 value class: NaN, plus/minus infinity, or a finite
value (idealized to an exact rational). -/
inductive PFloat where
  | nan : PFloat
  | inf : PFloat
  | neginf : PFloat
  | num : ℚ → PFloat
  deriving DecidableEq, Repr

/-- IEEE addition on the value classes: NaN propagates, opposite
infinities give NaN, an infinity absorbs any finite value. -/
def PFloat.add : PFloat → PFloat → PFloat
  | .nan, _ => .nan
  | _, .nan => .nan
  | .inf, .neginf => .nan
  | .neginf, .inf => .nan
  | .inf, _ => .inf
  | _, .inf => .inf
  | .neginf, _ => .neginf
  | _, .neginf => .neginf
  | .num a, .num b => .num (a + b)

/-- Multiplication by a rational constant, per IEEE: `c * NaN = NaN`;
`c * ±inf` keeps or flips the infinity by the sign of `c`, and
`0 * ±inf = NaN`. -/
def PFloat.mulC (c : ℚ) : PFloat → PFloat
  | .nan => .nan
  | .inf => if 0 < c then .inf else if c < 0 then .neginf else .nan
  | .neginf => if 0 < c then .neginf else if c < 0 then .inf else .nan
  | .num a => .num (c * a)

/-- The expression `1 / x` in numpy/pandas float semantics: `1/NaN = NaN`,
`1/±inf = 0`, `1/0.0 = +inf` (rationals have a single zero, embedded as
positive zero), otherwise the exact reciprocal. -/
def PFloat.oneDiv : PFloat → PFloat
  | .nan => .nan
  | .inf => .num 0
  | .neginf => .num 0
  | .num q => if q = 0 then .inf else .num (1 / q)

/-- The pandas missing-value test `isna`: true exactly on NaN (infinities
are not missing). -/
def isna : PFloat → Bool
  | .nan => true
  | _ => false

/-- Injection of a raw CSV cell into pandas float values: a missing cell
is NaN. -/
def ofCell : Option ℚ → PFloat
  | none => .nan
  | some q => .num q

/-- The notebook's target formula, exactly as written:
`data['Target'] = 0.5 * u + 0.5 * (1 / p)` followed by
`data['Target'] *= 2`. -/
def synthTarget (u p : Option ℚ) : PFloat :=
  PFloat.mulC 2
    (PFloat.add (PFloat.mulC (1/2) (ofCell u))
      (PFloat.mulC (1/2) (PFloat.oneDiv (ofCell p))))

/-- The 18 feature columns of `column_names` in the notebook, in source
order (all entries except `Target`). -/
inductive FCol where
  | asaGrav | asaVol | avVf | poreVolume | density | nexc
  | uptakeGrav | uptakeVol | lcd | pld | lfpd
  | cellLengthA | cellLengthB | cellLengthC
  | cellAngleAlpha | cellAngleBeta | cellAngleGamma | cellVolume
  deriving DecidableEq, Fintype, Repr

/-- A column name of `column_names`: a feature column or `Target`. -/
inductive Col where
  | feat : FCol → Col
  | targetCol : Col
  deriving DecidableEq, Repr

/-- The 18 feature columns in the notebook's `column_names` order. -/
def fcols : List FCol :=
  [.asaGrav, .asaVol, .avVf, .poreVolume, .density, .nexc,
   .uptakeGrav, .uptakeVol, .lcd, .pld, .lfpd,
   .cellLengthA, .cellLengthB, .cellLengthC,
   .cellAngleAlpha, .cellAngleBeta, .cellAngleGamma, .cellVolume]

/-- The notebook's `column_names` list: the 18 features then `Target`. -/
def columnNames : List Col := fcols.map Col.feat ++ [Col.targetCol]

/-- A row of `svm_data`: the 18 feature cells plus the synthesized
`Target` value. -/
structure SRow where
  feats : FCol → Option ℚ
  tgt : PFloat

/-- Target synthesis for one CSV row (the notebook's cell 2 applied
row-wise): features are carried over, `Target` is computed from
`uptake_vol` and `pore_volume`. -/
def synthRow (feats : FCol → Option ℚ) : SRow :=
  ⟨feats, synthTarget (feats .uptakeVol) (feats .poreVolume)⟩

/-- The values of one feature column across the dataset. -/
def colExtract (d : List SRow) (f : FCol) : List (Option ℚ) :=
  d.map (fun r => r.feats f)

/-- Minimum of a list of rationals, `none` on the empty list. -/
def listMin : List ℚ → Option ℚ
  | [] => none
  | x :: xs => some (xs.foldl min x)

/-- Maximum of a list of rationals, `none` on the empty list. -/
def listMax : List ℚ → Option ℚ
  | [] => none
  | x :: xs => some (xs.foldl max x)

/-- The pandas column minimum `Series.min()`: NaN cells are skipped;
NaN (here `none`) if every cell is missing. -/
def colMin (c : List (Option ℚ)) : Option ℚ := listMin (c.filterMap id)

/-- The pandas column maximum `Series.max()`, skipping NaN cells. -/
def colMax (c : List (Option ℚ)) : Option ℚ := listMax (c.filterMap id)

/-- One cell of `(s - s.min()) / (s.max() - s.min())` given the column's
min and max: a missing cell stays missing; when `max = min` the pandas
division is `0/0 = NaN`, so the cell becomes missing. -/
def normval (mn mx cell : Option ℚ) : Option ℚ :=
  match cell, mn, mx with
  | some v, some m, some M => if M = m then none else some ((v - m) / (M - m))
  | _, _, _ => none

/-- Normalization of one cell against its own column. -/
def normCell (c : List (Option ℚ)) (cell : Option ℚ) : Option ℚ :=
  normval (colMin c) (colMax c) cell

/-- The notebook's per-column min-max normalization
`svm_data[column] = (svm_data[column] - min) / (max - min)`. -/
def normalizeCol (c : List (Option ℚ)) : List (Option ℚ) :=
  c.map (normCell c)

/-- One loop iteration of the normalization cell restricted to a feature
column: rewrite that column in every row, using the column's current
values for min and max. -/
def normalizeStep (d : List SRow) (f : FCol) : List SRow :=
  let c := colExtract d f
  d.map (fun r => ⟨fun g => if g = f then normCell c (r.feats f) else r.feats g, r.tgt⟩)

/-- One iteration of `for column in column_names`, including the
`if column != "Target"` guard. -/
def loopStep (d : List SRow) (c : Col) : List SRow :=
  match c with
  | .targetCol => d
  | .feat f => normalizeStep d f

/-- The whole normalization loop of notebook cell 3: fold the per-column
step over `column_names` in source order. -/
def normalizeAll (d : List SRow) : List SRow := columnNames.foldl loopStep d

/-- The notebook's `svm_data.dropna()`: keep exactly the rows whose 19
retained cells are all non-missing (`Target` included; an infinite
`Target` is not missing and is kept). -/
def dropna (d : List SRow) : List SRow :=
  d.filter (fun r => (fcols.all fun f => (r.feats f).isSome) && !(isna r.tgt))

/-!
Dataset splitter.  The notebook calls
`train_test_split(X, y, test_size=0.2, random_state=42)`, an external
scikit-learn routine whose code is not part of this repository.
Its documented contract: draw a pseudo-random permutation of the row
indices from the seeded generator, take the first `ceil(test_size * n)`
indices as the evaluation set and the remaining indices as the training
set.  The permutation itself is modelled below with a concrete seeded
generator (a linear congruential step standing in for numpy's external
MT19937); every claim proved about the splitter depends only on the
split being a deterministic function of seed and input and on the
shuffle producing a permutation, both of which the real generator also
satisfies.
-/

/-- Modelled from the spec: one step of the seeded pseudo-random
generator backing the splitter (numpy's MT19937 is external library
code; a linear congruential step stands in for it). -/
def lcg (s : ℕ) : ℕ := (1664525 * s + 1013904223) % 4294967296

/-- Seeded shuffle: repeatedly pick the element at a pseudo-random
position and recurse on the rest; `fuel` bounds the recursion (it is
instantiated with the list length). -/
def shuffleGo {α : Type} : ℕ → ℕ → List α → List α
  | _, 0, l => l
  | s, fuel + 1, l =>
    match l with
    | [] => []
    | x :: xs =>
      (x :: xs).get ⟨s % (xs.length + 1), Nat.mod_lt s (Nat.succ_pos xs.length)⟩ ::
        shuffleGo (lcg s) fuel ((x :: xs).eraseIdx (s % (xs.length + 1)))

/-- Modelled from the spec: the seeded shuffle of a list. -/
def shuffle {α : Type} (s : ℕ) (l : List α) : List α := shuffleGo s l.length l

/-- The evaluation-set size for `test_size=0.2`: `ceil(0.2 * n)`,
scikit-learn's rounding rule. -/
def nTest (n : ℕ) : ℕ := (n + 4) / 5

/-- Modelled from the spec: `train_test_split` on the row indices
`0, ..., n-1` — shuffle them with the seeded generator, the first
`nTest n` shuffled indices form the evaluation set, the rest the
training set.  Returns (training indices, evaluation indices). -/
def splitIdx (seed n : ℕ) : List ℕ × List ℕ :=
  let sh := shuffle seed (List.range n)
  (sh.drop (nTest n), sh.take (nTest n))

/-- Modelled from the spec: `train_test_split` applied to the rows
themselves — the index split composed with row lookup.  Returns
(training rows, evaluation rows). -/
def trainTestSplitRows {α : Type} (seed : ℕ) (rows : List α) : List α × List α :=
  ((splitIdx seed rows.length).1.filterMap (fun i => rows[i]?),
   (splitIdx seed rows.length).2.filterMap (fun i => rows[i]?))

/-!
Regression fitter.  `LinearRegression().fit` and `mean_squared_error`
are external scikit-learn routines; only their call sites are in the
repository.  The fitter is modelled by its documented contract: it
returns coefficients and an intercept solving the ordinary-least-squares
problem, i.e. satisfying the normal equations of the training design
matrix.  `mean_squared_error(y_test, y_pred)` is the arithmetic mean of
the squared differences, exactly as numpy computes it.
-/

/-- The model's prediction `X·w + b` on row `i` of the feature matrix. -/
def predict {m k : ℕ} (X : Fin m → Fin k → ℚ) (w : Fin k → ℚ) (b : ℚ) :
    Fin m → ℚ :=
  fun i => (∑ j, X i j * w j) + b

/-- Sum of squared residuals of the affine model `(w, b)` on the data
`(X, y)`. -/
def ssr {m k : ℕ} (X : Fin m → Fin k → ℚ) (y : Fin m → ℚ)
    (w : Fin k → ℚ) (b : ℚ) : ℚ :=
  ∑ i, (predict X w b i - y i) ^ 2

/-- Modelled from the spec: the defining property of the coefficients
and intercept returned by `LinearRegression().fit` (external library
code) — they satisfy the least-squares normal equations, including the
intercept equation. -/
def NormalEqs {m k : ℕ} (X : Fin m → Fin k → ℚ) (y : Fin m → ℚ)
    (w : Fin k → ℚ) (b : ℚ) : Prop :=
  (∀ j, ∑ i, X i j * (predict X w b i - y i) = 0) ∧
    (∑ i, (predict X w b i - y i)) = 0

/-- Modelled from the spec: `mean_squared_error(y_true, y_pred)` —
numpy's mean of the squared differences `(y_true - y_pred)^2`. -/
def mseMetric {m : ℕ} (yTrue yPred : Fin m → ℚ) : ℚ :=
  (∑ i, (yTrue i - yPred i) ^ 2) / m

/-!
Concrete sample datasets used to witness the theorems below.
-/

/-- A two-row dataset whose first row has `pore_volume = 0` (all other
features 1) and whose second row has every feature 2. -/
def rawsPoreZero : List (FCol → Option ℚ) :=
  [fun f => if f = .poreVolume then some 0 else some 1, fun _ => some 2]

/-- Row `j` of the five-row sample: every feature `j+1`, except that row
4 has a missing `pore_volume`. -/
def mkRow5 (j : ℕ) : FCol → Option ℚ :=
  fun f => if j = 4 ∧ f = FCol.poreVolume then none else some ((j : ℚ) + 1)

/-- Five rows, exactly one of which (the last) has a missing
`pore_volume`. -/
def rows5 : List (FCol → Option ℚ) := (List.range 5).map mkRow5

/-- Row `j` of the three-row sample: every feature `j+1`, except that
row 0 (the minimum holder of every column) has a missing `av_vf`. -/
def mkRow3 (j : ℕ) : FCol → Option ℚ :=
  fun f => if j = 0 ∧ f = FCol.avVf then none else some ((j : ℚ) + 1)

/-- Three rows whose per-column minimum holder has a missing value in
another column. -/
def rows3 : List (FCol → Option ℚ) := (List.range 3).map mkRow3

/-- Two rows whose every feature column takes the values 0 and 1. -/
def rowsPair : List SRow :=
  [⟨fun _ => some 0, PFloat.num 0⟩, ⟨fun _ => some 1, PFloat.num 0⟩]

/-- Two rows whose every feature column is constantly 5 (zero variance). -/
def rowsConst : List SRow :=
  [⟨fun _ => some 5, PFloat.num 0⟩, ⟨fun _ => some 5, PFloat.num 1⟩]

/-- A 2-by-1 design matrix with rows 0 and 1. -/
def Xfit : Fin 2 → Fin 1 → ℚ := fun i _ => if i = 0 then 0 else 1

/-- Targets equal to the single feature: a perfect linear fit exists. -/
def yfit : Fin 2 → ℚ := fun i => if i = 0 then 0 else 1

/-- The exact coefficient vector for `yfit` on `Xfit` (slope 1). -/
def wfit : Fin 1 → ℚ := fun _ => 1

/-!
Helper lemmas.
-/

theorem foldl_min_le_init (xs : List ℚ) (x : ℚ) : xs.foldl min x ≤ x := by
  induction xs generalizing x with
  | nil => exact le_refl x
  | cons y ys ih => exact le_trans (ih (min x y)) (min_le_left x y)

theorem foldl_min_le_mem (xs : List ℚ) (x v : ℚ) (hv : v ∈ xs) :
    xs.foldl min x ≤ v := by
  induction xs generalizing x with
  | nil => cases hv
  | cons y ys ih =>
    rcases List.mem_cons.1 hv with h | h
    · subst h; exact le_trans (foldl_min_le_init ys (min x v)) (min_le_right x v)
    · exact ih (min x y) h

theorem foldl_max_init_le (xs : List ℚ) (x : ℚ) : x ≤ xs.foldl max x := by
  induction xs generalizing x with
  | nil => exact le_refl x
  | cons y ys ih => exact le_trans (le_max_left x y) (ih (max x y))

theorem foldl_max_mem_le (xs : List ℚ) (x v : ℚ) (hv : v ∈ xs) :
    v ≤ xs.foldl max x := by
  induction xs generalizing x with
  | nil => cases hv
  | cons y ys ih =>
    rcases List.mem_cons.1 hv with h | h
    · subst h; exact le_trans (le_max_right x v) (foldl_max_init_le ys (max x v))
    · exact ih (max x y) h

theorem listMin_le (l : List ℚ) (m v : ℚ) (h : listMin l = some m) (hv : v ∈ l) :
    m ≤ v := by
  cases l with
  | nil => cases h
  | cons x xs =>
    have hm : xs.foldl min x = m := by
      simpa [listMin] using h
    rcases List.mem_cons.1 hv with h' | h'
    · subst h'; exact hm ▸ foldl_min_le_init xs v
    · exact hm ▸ foldl_min_le_mem xs x v h'

theorem listMax_ge (l : List ℚ) (M v : ℚ) (h : listMax l = some M) (hv : v ∈ l) :
    v ≤ M := by
  cases l with
  | nil => cases h
  | cons x xs =>
    have hm : xs.foldl max x = M := by
      simpa [listMax] using h
    rcases List.mem_cons.1 hv with h' | h'
    · subst h'; exact hm ▸ foldl_max_init_le xs v
    · exact hm ▸ foldl_max_mem_le xs x v h'

theorem colMin_le (c : List (Option ℚ)) (m v : ℚ) (h : colMin c = some m)
    (hv : some v ∈ c) : m ≤ v :=
  listMin_le _ _ _ h (List.mem_filterMap.2 ⟨some v, hv, rfl⟩)

theorem colMax_ge (c : List (Option ℚ)) (M v : ℚ) (h : colMax c = some M)
    (hv : some v ∈ c) : v ≤ M :=
  listMax_ge _ _ _ h (List.mem_filterMap.2 ⟨some v, hv, rfl⟩)

theorem normCell_bounds (c : List (Option ℚ)) (cell : Option ℚ) (v : ℚ)
    (hc : cell ∈ c) (h : normCell c cell = some v) : 0 ≤ v ∧ v ≤ 1 := by
  unfold normCell normval at h
  cases cell with
  | none => cases h
  | some w =>
    cases hmn : colMin c with
    | none => rw [hmn] at h; cases h
    | some m =>
      cases hmx : colMax c with
      | none => rw [hmn, hmx] at h; cases h
      | some M =>
        rw [hmn, hmx] at h
        dsimp only at h
        by_cases hMm : M = m
        · rw [if_pos hMm] at h; cases h
        · rw [if_neg hMm] at h
          have hv : (w - m) / (M - m) = v := Option.some.inj h
          have hmw : m ≤ w := colMin_le c m w hmn hc
          have hwM : w ≤ M := colMax_ge c M w hmx hc
          have hlt : m < M := lt_of_le_of_ne (le_trans hmw hwM) (Ne.symm hMm)
          subst hv
          constructor
          · exact div_nonneg (sub_nonneg.2 hmw) (le_of_lt (sub_pos.2 hlt))
          · exact (div_le_one (sub_pos.2 hlt)).2 (by linarith)

theorem colExtract_normalizeStep_self (d : List SRow) (f : FCol) :
    colExtract (normalizeStep d f) f = normalizeCol (colExtract d f) := by
  simp only [normalizeStep, colExtract, normalizeCol, List.map_map]
  refine List.map_congr_left ?_
  intro r _
  simp

theorem colExtract_normalizeStep_other (d : List SRow) {f g : FCol} (h : f ≠ g) :
    colExtract (normalizeStep d g) f = colExtract d f := by
  simp only [normalizeStep, colExtract, List.map_map]
  refine List.map_congr_left ?_
  intro r _
  simp [if_neg h]

theorem colExtract_loopStep_other (d : List SRow) (c : Col) (f : FCol)
    (h : c ≠ Col.feat f) : colExtract (loopStep d c) f = colExtract d f := by
  cases c with
  | targetCol => rfl
  | feat g =>
    refine colExtract_normalizeStep_other d ?_
    intro hfg
    exact h (by rw [hfg])

theorem colExtract_foldl_not_mem (l : List Col) (d : List SRow) (f : FCol)
    (h : Col.feat f ∉ l) :
    colExtract (l.foldl loopStep d) f = colExtract d f := by
  induction l generalizing d with
  | nil => rfl
  | cons c t ih =>
    have hc : c ≠ Col.feat f := fun hc => h (hc ▸ List.mem_cons_self c t)
    have ht : Col.feat f ∉ t := fun ht => h (List.mem_cons_of_mem c ht)
    rw [List.foldl_cons, ih (loopStep d c) ht,
      colExtract_loopStep_other d c f (fun hcf => hc hcf)]

theorem colExtract_foldl_count_one (l : List Col) (d : List SRow) (f : FCol)
    (h : l.count (Col.feat f) = 1) :
    colExtract (l.foldl loopStep d) f = normalizeCol (colExtract d f) := by
  induction l generalizing d with
  | nil => cases h
  | cons c t ih =>
    by_cases hc : c = Col.feat f
    · subst hc
      have ht : Col.feat f ∉ t := by
        rw [List.count_cons_self] at h
        exact List.count_eq_zero.1 (Nat.succ_injective h)
      rw [List.foldl_cons, colExtract_foldl_not_mem t _ f ht]
      exact colExtract_normalizeStep_self d f
    · have ht : t.count (Col.feat f) = 1 := by
        rwa [List.count_cons_of_ne (fun hcf => hc hcf.symm)] at h
      rw [List.foldl_cons, ih (loopStep d c) ht,
        colExtract_loopStep_other d c f (fun hcf => hc hcf)]

theorem columnNames_count (f : FCol) : columnNames.count (Col.feat f) = 1 := by
  revert f
  decide

theorem normalizeAll_col (d : List SRow) (f : FCol) :
    colExtract (normalizeAll d) f = normalizeCol (colExtract d f) :=
  colExtract_foldl_count_one columnNames d f (columnNames_count f)

theorem normalizeStep_tgt (d : List SRow) (f : FCol) :
    (normalizeStep d f).map (fun r => r.tgt) = d.map (fun r => r.tgt) := by
  simp only [normalizeStep, List.map_map]
  rfl

theorem loopStep_tgt (d : List SRow) (c : Col) :
    (loopStep d c).map (fun r => r.tgt) = d.map (fun r => r.tgt) := by
  cases c with
  | targetCol => rfl
  | feat f => exact normalizeStep_tgt d f

theorem foldl_tgt (l : List Col) (d : List SRow) :
    ((l.foldl loopStep d).map fun r => r.tgt) = d.map fun r => r.tgt := by
  induction l generalizing d with
  | nil => rfl
  | cons c t ih => rw [List.foldl_cons, ih (loopStep d c), loopStep_tgt]

theorem fcols_complete (f : FCol) : f ∈ fcols := by
  revert f
  decide

theorem dropna_sub (d : List SRow) (r : SRow) (h : r ∈ dropna d) : r ∈ d :=
  List.mem_of_mem_filter h

theorem colExtract_mem_of_mem (d : List SRow) (f : FCol) (r : SRow)
    (hr : r ∈ d) : r.feats f ∈ colExtract d f :=
  List.mem_map.2 ⟨r, hr, rfl⟩

theorem colExtract_mem_elim (d : List SRow) (f : FCol) (cell : Option ℚ)
    (h : cell ∈ colExtract d f) : ∃ r ∈ d, r.feats f = cell :=
  List.mem_map.1 h

theorem dropna_keeps (d : List SRow) (r : SRow) (h : r ∈ dropna d) :
    (∀ f, (r.feats f).isSome = true) ∧ isna r.tgt = false := by
  have hp := (List.mem_filter.1 h).2
  simp only [Bool.and_eq_true, List.all_eq_true, Bool.not_eq_true'] at hp
  exact ⟨fun f => hp.1 f (fcols_complete f), hp.2⟩

theorem get_cons_eraseIdx_perm {α : Type} (l : List α) (i : ℕ)
    (h : i < l.length) : (l.get ⟨i, h⟩ :: l.eraseIdx i).Perm l := by
  have h2 : l.take i ++ l[i] :: l.drop (i + 1) = l := by
    rw [List.getElem_cons_drop l i h]
    exact List.take_append_drop i l
  rw [List.get_eq_getElem, List.eraseIdx_eq_take_drop_succ]
  conv_rhs => rw [← h2]
  exact List.perm_middle.symm

theorem shuffleGo_perm {α : Type} (fuel s : ℕ) (l : List α) :
    (shuffleGo s fuel l).Perm l := by
  induction fuel generalizing s l with
  | zero => exact List.Perm.refl l
  | succ n ih =>
    cases l with
    | nil => exact List.Perm.refl []
    | cons x xs =>
      exact ((ih (lcg s) _).cons _).trans
        (get_cons_eraseIdx_perm (x :: xs) (s % (xs.length + 1))
          (Nat.mod_lt s (Nat.succ_pos xs.length)))

theorem shuffle_perm {α : Type} (s : ℕ) (l : List α) : (shuffle s l).Perm l :=
  shuffleGo_perm l.length s l

theorem range_filterMap_get {α : Type} (rows : List α) :
    (List.range rows.length).filterMap (fun i => rows[i]?) = rows := by
  induction rows with
  | nil => rfl
  | cons r rs ih =>
    rw [List.length_cons, List.range_succ_eq_map, List.filterMap_cons]
    simp only [List.getElem?_cons_zero]
    rw [List.filterMap_map]
    have hfun : ((fun i => (r :: rs)[i]?) ∘ Nat.succ) = fun i : ℕ => rs[i]? := by
      funext i
      simp
    rw [hfun, ih]

theorem nTest_le (n : ℕ) : nTest n ≤ n := by
  unfold nTest
  omega

theorem nTest_bounds (n : ℕ) : n ≤ 5 * nTest n ∧ 5 * nTest n ≤ n + 4 := by
  unfold nTest
  omega

theorem normalEqs_minimize {m k : ℕ} (X : Fin m → Fin k → ℚ) (y : Fin m → ℚ)
    (w : Fin k → ℚ) (b : ℚ) (h : NormalEqs X y w b)
    (w' : Fin k → ℚ) (b' : ℚ) : ssr X y w b ≤ ssr X y w' b' := by
  obtain ⟨h1, h2⟩ := h
  have hpt : ∀ i, predict X w' b' i - y i =
      (predict X w b i - y i) + ((∑ j, X i j * (w' j - w j)) + (b' - b)) := by
    intro i
    have hs : ∑ j, X i j * (w' j - w j)
        = (∑ j, X i j * w' j) - ∑ j, X i j * w j := by
      rw [← Finset.sum_sub_distrib]
      exact Finset.sum_congr rfl fun j _ => by ring
    simp only [predict]
    rw [hs]
    ring
  have hcross : ∑ i, (predict X w b i - y i) *
      ((∑ j, X i j * (w' j - w j)) + (b' - b)) = 0 := by
    have expand : ∀ i, (predict X w b i - y i) *
        ((∑ j, X i j * (w' j - w j)) + (b' - b))
        = (∑ j, (X i j * (predict X w b i - y i)) * (w' j - w j))
          + (predict X w b i - y i) * (b' - b) := by
      intro i
      rw [mul_add]
      congr 1
      rw [Finset.mul_sum]
      exact Finset.sum_congr rfl fun j _ => by ring
    rw [Finset.sum_congr rfl fun i _ => expand i, Finset.sum_add_distrib,
      ← Finset.sum_mul, h2, zero_mul, add_zero, Finset.sum_comm]
    refine Finset.sum_eq_zero fun j _ => ?_
    rw [← Finset.sum_mul, h1 j, zero_mul]
  have hdec : ssr X y w' b' = ssr X y w b
      + ∑ i, ((∑ j, X i j * (w' j - w j)) + (b' - b)) ^ 2 := by
    simp only [ssr]
    rw [Finset.sum_congr rfl fun i _ => by rw [hpt i]]
    have hsq : ∀ i : Fin m,
        ((predict X w b i - y i) + ((∑ j, X i j * (w' j - w j)) + (b' - b))) ^ 2
        = (predict X w b i - y i) ^ 2
          + (2 * ((predict X w b i - y i)
              * ((∑ j, X i j * (w' j - w j)) + (b' - b)))
            + ((∑ j, X i j * (w' j - w j)) + (b' - b)) ^ 2) :=
      fun i => by ring
    rw [Finset.sum_congr rfl fun i _ => hsq i, Finset.sum_add_distrib,
      Finset.sum_add_distrib, ← Finset.mul_sum, hcross, mul_zero, zero_add]
  rw [hdec]
  exact le_add_of_nonneg_right (Finset.sum_nonneg fun i _ => sq_nonneg _)

theorem add_nan_left (x : PFloat) : PFloat.add PFloat.nan x = PFloat.nan := by
  cases x <;> rfl

theorem add_nan_right (x : PFloat) : PFloat.add x PFloat.nan = PFloat.nan := by
  cases x <;> rfl

theorem add_num_inf (a : ℚ) : PFloat.add (PFloat.num a) PFloat.inf = PFloat.inf := rfl

/-!
Claim theorems.
-/

/-- C1: for every record with non-missing `uptake_vol` and non-missing,
nonzero `pore_volume`, the Target Synthesizer sets `Target` equal to
`2 * (0.5*uptake_vol + 0.5*(1/pore_volume))` (exact arithmetic). -/
theorem target_formula_exact (u p : ℚ) (hp : p ≠ 0) :
    synthTarget (some u) (some p)
      = PFloat.num (2 * (0.5 * u + 0.5 * (1 / p))) := by
  simp only [synthTarget, ofCell, PFloat.oneDiv, if_neg hp, PFloat.mulC, PFloat.add]
  congr 1
  norm_num

/-- Witness for C1 at `uptake_vol = 1`, `pore_volume = 2`. -/
theorem target_formula_exact_witness :
    (2 : ℚ) ≠ 0 ∧ synthTarget (some 1) (some 2)
      = PFloat.num (2 * (0.5 * 1 + 0.5 * (1 / 2))) :=
  ⟨by norm_num, target_formula_exact 1 2 (by norm_num)⟩

unseal Rat.mul Rat.add Rat.sub Rat.inv in
/-- C2 counterexample: a record with `pore_volume = 0` and `uptake_vol = 1`
gets `Target = +inf`, which pandas does not regard as missing, and the
record survives the full normalize-then-dropna pipeline (in a two-row
dataset both rows survive), contradicting the claim that division by zero
yields a missing `Target` that downstream filtering drops. -/
theorem target_zero_pore_not_missing :
    synthTarget (some 1) (some 0) = PFloat.inf
    ∧ isna (synthTarget (some 1) (some 0)) = false
    ∧ (dropna (normalizeAll (rawsPoreZero.map synthRow))).length = 2 := by
  decide

/-- C2 (amended): a record with a missing `uptake_vol` or a missing
`pore_volume` gets a missing (NaN) `Target`, and no record with a missing
`Target` survives the missing-value filter; but a record whose
`pore_volume` is exactly zero (with `uptake_vol` present) gets
`Target = +inf`, which is not a missing value and is not removed by
missing-value filtering. -/
theorem target_missing_amended :
    (∀ p, isna (synthTarget none p) = true)
    ∧ (∀ u, isna (synthTarget u none) = true)
    ∧ (∀ uq : ℚ, synthTarget (some uq) (some 0) = PFloat.inf)
    ∧ (∀ d : List SRow, (dropna d).all (fun r => !(isna r.tgt)) = true) := by
  refine ⟨?_, ?_, ?_, ?_⟩
  · intro p
    simp [synthTarget, ofCell, PFloat.mulC, add_nan_left, isna]
  · intro u
    simp [synthTarget, ofCell, PFloat.oneDiv, PFloat.mulC, add_nan_right, isna]
  · intro uq
    have h1 : PFloat.oneDiv (PFloat.num 0) = PFloat.inf := by
      simp [PFloat.oneDiv]
    have h2 : PFloat.mulC (1/2) PFloat.inf = PFloat.inf := by
      norm_num [PFloat.mulC]
    have h3 : PFloat.mulC 2 PFloat.inf = PFloat.inf := by
      norm_num [PFloat.mulC]
    show PFloat.mulC 2
      (PFloat.add (PFloat.mulC (1/2) (ofCell (some uq)))
        (PFloat.mulC (1/2) (PFloat.oneDiv (ofCell (some 0))))) = PFloat.inf
    rw [show ofCell (some 0) = PFloat.num 0 from rfl, h1, h2,
      show ofCell (some uq) = PFloat.num uq from rfl,
      show PFloat.mulC (1/2) (PFloat.num uq) = PFloat.num ((1/2) * uq) from rfl,
      add_num_inf, h3]
  · intro d
    refine List.all_eq_true.2 fun r hr => ?_
    have hp := (List.mem_filter.1 hr).2
    rw [Bool.and_eq_true] at hp
    exact hp.2

/-- C3: for a feature column with at least one non-missing value and
nonzero range (min `m` < max `M`), after the normalization loop runs,
every non-missing value of that column lies in [0,1]; the position
holding the column's original minimum maps to 0 and the one holding the
original maximum maps to 1. -/
theorem normalizer_unit_interval (d : List SRow) (f : FCol) (m M : ℚ)
    (hmin : colMin (colExtract d f) = some m)
    (hmax : colMax (colExtract d f) = some M) (hlt : m < M) :
    (∀ cell ∈ colExtract (normalizeAll d) f, ∀ v, cell = some v → 0 ≤ v ∧ v ≤ 1)
    ∧ (∀ i : ℕ, (colExtract d f)[i]? = some (some m)
        → (colExtract (normalizeAll d) f)[i]? = some (some 0))
    ∧ (∀ i : ℕ, (colExtract d f)[i]? = some (some M)
        → (colExtract (normalizeAll d) f)[i]? = some (some 1)) := by
  rw [normalizeAll_col d f]
  refine ⟨?_, ?_, ?_⟩
  · intro cell hcell v hv
    obtain ⟨a, ha, hae⟩ := List.mem_map.1 hcell
    exact normCell_bounds _ a v ha (hae.trans hv)
  · intro i hi
    rw [normalizeCol, List.getElem?_map, hi, Option.map_some']
    congr 1
    unfold normCell
    rw [hmin, hmax]
    simp only [normval]
    rw [if_neg (ne_of_gt hlt), sub_self, zero_div]
  · intro i hi
    rw [normalizeCol, List.getElem?_map, hi, Option.map_some']
    congr 1
    unfold normCell
    rw [hmin, hmax]
    simp only [normval]
    rw [if_neg (ne_of_gt hlt), div_self (sub_ne_zero.2 (ne_of_gt hlt))]

/-- Witness for C3 on the two-row dataset whose columns take the values
0 and 1. -/
theorem normalizer_unit_interval_witness :
    (colMin (colExtract rowsPair FCol.asaGrav) = some 0
      ∧ colMax (colExtract rowsPair FCol.asaGrav) = some 1
      ∧ (0 : ℚ) < 1)
    ∧ ((∀ cell ∈ colExtract (normalizeAll rowsPair) FCol.asaGrav,
          ∀ v, cell = some v → 0 ≤ v ∧ v ≤ 1)
      ∧ (∀ i : ℕ, (colExtract rowsPair FCol.asaGrav)[i]? = some (some 0)
          → (colExtract (normalizeAll rowsPair) FCol.asaGrav)[i]? = some (some 0))
      ∧ (∀ i : ℕ, (colExtract rowsPair FCol.asaGrav)[i]? = some (some 1)
          → (colExtract (normalizeAll rowsPair) FCol.asaGrav)[i]? = some (some 1))) :=
  ⟨⟨by decide, by decide, by decide⟩,
    normalizer_unit_interval rowsPair FCol.asaGrav 0 1 (by decide) (by decide)
      (by decide)⟩

/-- C4: for a feature column with zero variance (its non-missing minimum
equals its non-missing maximum), the normalization loop maps every entry
of that column to the one deterministic fallback value NaN (the pandas
result of the 0/0 division), the loop itself is a total function, and the
remaining columns are still processed exactly as usual. -/
theorem normalizer_degenerate_fallback (d : List SRow) (f : FCol) (m : ℚ)
    (hmin : colMin (colExtract d f) = some m)
    (hmax : colMax (colExtract d f) = some m) :
    (∀ cell ∈ colExtract (normalizeAll d) f, cell = none)
    ∧ (∀ g, colExtract (normalizeAll d) g = normalizeCol (colExtract d g)) := by
  refine ⟨?_, fun g => normalizeAll_col d g⟩
  rw [normalizeAll_col d f]
  intro cell hcell
  obtain ⟨a, ha, hae⟩ := List.mem_map.1 hcell
  cases a with
  | none => exact hae.symm
  | some w =>
    rw [← hae]
    unfold normCell
    rw [hmin, hmax]
    simp only [normval]
    simp

/-- Witness for C4 on the two-row dataset whose columns are constantly 5. -/
theorem normalizer_degenerate_fallback_witness :
    (colMin (colExtract rowsConst FCol.asaGrav) = some 5
      ∧ colMax (colExtract rowsConst FCol.asaGrav) = some 5)
    ∧ ((∀ cell ∈ colExtract (normalizeAll rowsConst) FCol.asaGrav, cell = none)
      ∧ (∀ g, colExtract (normalizeAll rowsConst) g
          = normalizeCol (colExtract rowsConst g))) :=
  ⟨⟨by decide, by decide⟩,
    normalizer_degenerate_fallback rowsConst FCol.asaGrav 5 (by decide) (by decide)⟩

/-- C5: the Dataset Splitter is deterministic — two runs of
`train_test_split` with the same seed 42 on the same dataset produce
exactly the same Training and Evaluation lists. -/
theorem splitter_deterministic {α : Type} (rows : List α)
    (r1 r2 : List α × List α)
    (h1 : r1 = trainTestSplitRows 42 rows)
    (h2 : r2 = trainTestSplitRows 42 rows) :
    r1.1 = r2.1 ∧ r1.2 = r2.2 := by
  subst h1
  subst h2
  exact ⟨rfl, rfl⟩

/-- Witness for C5 on a three-element dataset. -/
theorem splitter_deterministic_witness :
    (trainTestSplitRows 42 [10, 20, 30] = trainTestSplitRows 42 [10, 20, 30]
      ∧ trainTestSplitRows 42 [10, 20, 30] = trainTestSplitRows 42 [10, 20, 30])
    ∧ ((trainTestSplitRows 42 [10, 20, 30]).1
          = (trainTestSplitRows 42 [10, 20, 30]).1
      ∧ (trainTestSplitRows 42 [10, 20, 30]).2
          = (trainTestSplitRows 42 [10, 20, 30]).2) :=
  ⟨⟨rfl, rfl⟩, splitter_deterministic [10, 20, 30] _ _ rfl rfl⟩

/-- C6: the split is a partition — the training and evaluation index
lists are disjoint, together they cover exactly the indices of the input
dataset, the training and evaluation rows together are a permutation of
the input rows, and the evaluation size is `nTest n = ceil(n/5)`, which
is within one record of the exact 0.2 fraction. -/
theorem splitter_partition {α : Type} (seed n : ℕ) (rows : List α) :
    List.Disjoint (splitIdx seed n).1 (splitIdx seed n).2
    ∧ (∀ i, (i ∈ (splitIdx seed n).1 ∨ i ∈ (splitIdx seed n).2) ↔ i < n)
    ∧ ((trainTestSplitRows seed rows).1 ++ (trainTestSplitRows seed rows).2).Perm
        rows
    ∧ (splitIdx seed n).2.length = nTest n
    ∧ |(nTest n : ℚ) - (1/5) * n| ≤ 1 := by
  have hperm : (shuffle seed (List.range n)).Perm (List.range n) :=
    shuffle_perm seed (List.range n)
  have hlen : (shuffle seed (List.range n)).length = n := by
    rw [hperm.length_eq, List.length_range]
  have hnodup : (shuffle seed (List.range n)).Nodup :=
    hperm.nodup_iff.2 (List.nodup_range n)
  refine ⟨?_, ?_, ?_, ?_, ?_⟩
  · exact (List.disjoint_take_drop hnodup (le_refl (nTest n))).symm
  · intro i
    simp only [splitIdx]
    rw [or_comm, ← List.mem_append, List.take_append_drop, hperm.mem_iff,
      List.mem_range]
  · have hperm2 : (shuffle seed (List.range rows.length)).Perm
        (List.range rows.length) := shuffle_perm seed (List.range rows.length)
    have happ : (trainTestSplitRows seed rows).1 ++ (trainTestSplitRows seed rows).2
        = ((shuffle seed (List.range rows.length)).drop (nTest rows.length)
            ++ (shuffle seed (List.range rows.length)).take (nTest rows.length)).filterMap
              (fun i => rows[i]?) := by
      rw [List.filterMap_append]
      rfl
    rw [happ]
    have hp3 : ((shuffle seed (List.range rows.length)).drop (nTest rows.length)
        ++ (shuffle seed (List.range rows.length)).take (nTest rows.length)).Perm
          (List.range rows.length) :=
      (List.perm_append_comm).trans
        ((List.take_append_drop (nTest rows.length) _).symm ▸ hperm2)
    have := hp3.filterMap (fun i => rows[i]?)
    rwa [range_filterMap_get rows] at this
  · show ((shuffle seed (List.range n)).take (nTest n)).length = nTest n
    rw [List.length_take, hlen]
    exact Nat.min_eq_left (nTest_le n)
  · obtain ⟨hb1, hb2⟩ := nTest_bounds n
    have c1 : (n : ℚ) ≤ 5 * (nTest n : ℚ) := by exact_mod_cast hb1
    have c2 : 5 * (nTest n : ℚ) ≤ (n : ℚ) + 4 := by exact_mod_cast hb2
    rw [abs_le]
    constructor <;> linarith

unseal Rat.mul Rat.add Rat.sub Rat.inv in
/-- C7: the missing-value filter keeps exactly the rows whose 19 retained
cells are all non-missing — so the matrix fed to the fitter is fully
populated — and the concrete five-row dataset in which exactly one row
has a missing `pore_volume` yields exactly four rows after the full
synthesize-normalize-dropna pipeline. -/
theorem dropna_fit_matrix :
    (∀ d : List SRow, (dropna d).all
      (fun r => (fcols.all fun f => (r.feats f).isSome) && !(isna r.tgt)) = true)
    ∧ (dropna (normalizeAll (rows5.map synthRow))).length = 4 := by
  constructor
  · intro d
    exact List.all_eq_true.2 fun r hr => (List.mem_filter.1 hr).2
  · decide

/-- C8: coefficients and intercept satisfying the fitter's defining
normal equations minimize the sum of squared residuals over the training
data, and the reported metric `mseMetric` (numpy's
`mean((y_true - y_pred)^2)`) equals `mean((y_pred - y_true)^2)`. -/
theorem ols_minimizes_and_mse {m k : ℕ} (X : Fin m → Fin k → ℚ)
    (y : Fin m → ℚ) (w : Fin k → ℚ) (b : ℚ) (h : NormalEqs X y w b) :
    (∀ (w' : Fin k → ℚ) (b' : ℚ), ssr X y w b ≤ ssr X y w' b')
    ∧ (∀ yTrue yPred : Fin m → ℚ,
        mseMetric yTrue yPred = (∑ i, (yPred i - yTrue i) ^ 2) / m) := by
  refine ⟨fun w' b' => normalEqs_minimize X y w b h w' b', fun yt yp => ?_⟩
  unfold mseMetric
  congr 1
  exact Finset.sum_congr rfl fun i _ => by ring

/-- Witness for C8 on a 2-by-1 design with an exact linear fit. -/
theorem ols_minimizes_and_mse_witness :
    NormalEqs Xfit yfit wfit 0
    ∧ ((∀ (w' : Fin 1 → ℚ) (b' : ℚ),
          ssr Xfit yfit wfit 0 ≤ ssr Xfit yfit w' b')
      ∧ (∀ yTrue yPred : Fin 2 → ℚ,
          mseMetric yTrue yPred
            = (∑ i, (yPred i - yTrue i) ^ 2) / ((2 : ℕ) : ℚ))) :=
  have h : NormalEqs Xfit yfit wfit 0 := by
    constructor
    · intro j
      simp [predict, Xfit, yfit, wfit, Fin.sum_univ_two]
    · simp [predict, Xfit, yfit, wfit, Fin.sum_univ_two]
  ⟨h, ols_minimizes_and_mse Xfit yfit wfit 0 h⟩

/-- C9: the normalization loop leaves the `Target` column unchanged in
every record (the loop's guard skips `Target`), while each designated
feature column is exactly min-max rescaled. -/
theorem normalizer_preserves_target (d : List SRow) :
    ((normalizeAll d).map fun r => r.tgt) = (d.map fun r => r.tgt)
    ∧ ∀ f, colExtract (normalizeAll d) f = normalizeCol (colExtract d f) :=
  ⟨foldl_tgt columnNames d, fun f => normalizeAll_col d f⟩

unseal Rat.mul Rat.add Rat.sub Rat.inv in
/-- Concrete evaluation for C10: the surviving `asa_grav` cells of the
three-row sample after the full pipeline. -/
theorem rows3_asaGrav_cells :
    colExtract (dropna (normalizeAll (rows3.map synthRow))) FCol.asaGrav
      = [some (1/2), some 1] := by
  decide

/-- C10: min and max are computed over the full dataset before the
missing-value filter runs (normalization precedes `dropna` in the
pipeline), so every non-missing value in the post-filter fit matrix still
lies in [0,1]; and on the concrete three-row dataset whose per-column
minimum holder carries a missing value elsewhere, the surviving
`asa_grav` cells are 1/2 and 1 — the extreme value 0 is not attained by
any surviving record. -/
theorem fit_matrix_bounds :
    (∀ (d : List SRow) (f : FCol) (cell : Option ℚ),
      cell ∈ colExtract (dropna (normalizeAll d)) f
      → ∀ v, cell = some v → 0 ≤ v ∧ v ≤ 1)
    ∧ colExtract (dropna (normalizeAll (rows3.map synthRow))) FCol.asaGrav
      = [some (1/2), some 1] := by
  constructor
  · intro d f cell hcell v hv
    obtain ⟨r, hr, hre⟩ := colExtract_mem_elim _ f cell hcell
    have hrd : r ∈ normalizeAll d := dropna_sub (normalizeAll d) r hr
    have hcell2 : cell ∈ colExtract (normalizeAll d) f :=
      hre ▸ colExtract_mem_of_mem (normalizeAll d) f r hrd
    rw [normalizeAll_col d f] at hcell2
    obtain ⟨a, ha, hae⟩ := List.mem_map.1 hcell2
    exact normCell_bounds _ a v ha (hae.trans hv)
  · exact rows3_asaGrav_cells

unseal Rat.mul Rat.add Rat.sub Rat.inv in
/-- Witness for C10: the surviving cell 1/2 of the three-row sample's
`asa_grav` column lies in [0,1]. -/
theorem fit_matrix_bounds_witness :
    (some (1/2 : ℚ)
        ∈ colExtract (dropna (normalizeAll (rows3.map synthRow))) FCol.asaGrav
      ∧ (some (1/2 : ℚ) : Option ℚ) = some (1/2 : ℚ))
    ∧ (0 ≤ (1/2 : ℚ) ∧ (1/2 : ℚ) ≤ 1) :=
  ⟨⟨by decide, rfl⟩,
    fit_matrix_bounds.1 (rows3.map synthRow) FCol.asaGrav (some (1/2 : ℚ))
      (by decide) (1/2 : ℚ) rfl⟩

/-- Witness for C6 at seed 42 on a three-element dataset. -/
theorem splitter_partition_witness :
    List.Disjoint (splitIdx 42 3).1 (splitIdx 42 3).2
    ∧ (∀ i, (i ∈ (splitIdx 42 3).1 ∨ i ∈ (splitIdx 42 3).2) ↔ i < 3)
    ∧ ((trainTestSplitRows 42 [10, 20, 30]).1
        ++ (trainTestSplitRows 42 [10, 20, 30]).2).Perm [10, 20, 30]
    ∧ (splitIdx 42 3).2.length = nTest 3
    ∧ |(nTest 3 : ℚ) - (1/5) * 3| ≤ 1 :=
  splitter_partition 42 3 [10, 20, 30]
